import Mathlib

/-!
Verification of the immutable directed-graph engine in `src/Utils/Graph.ts`.

The TypeScript class `Graph` is shallowly embedded: vertices are integers
(`Vertex = number`, integer-valued throughout the repository), edge weights
are rationals modelling finite JS numbers, the absent/present `weight` and
`distance` properties of an edge object are `Option` fields, and the two
error classes `GraphArgumentError` / `GraphValidationError` become the two
constructors of `GError`.  Distance maps (JS records keyed by vertex) are
total functions `Vertex → WithTop ℚ`, `⊤` standing for `Infinity`; the JS
record is only ever read at graph vertices, where the two agree.
-/

deriving instance DecidableEq for Except

inductive GError where
  | argumentError
  | validationError
deriving DecidableEq

abbrev Vertex := Int

/-- Edge objects.  `weight` models the optional `weight` property declared in
`GraphData.types.ts`; `distance` models the extra property that
`fromDisMatrix` attaches to the objects it builds (the TS code routes these
objects through an `as Edge[]` cast, so the property survives even though
the declared `Edge` type does not mention it). -/
structure Edge where
  «from» : Vertex
  «to» : Vertex
  weight : Option ℚ := none
  distance : Option ℚ := none
deriving DecidableEq

structure Graph where
  vertices : List Vertex
  edges : List Edge
deriving DecidableEq

/-- `validateGraph` from the source: every edge endpoint must occur among the
vertices (the JS code materialises a `Set` of the vertices; membership is the
same). -/
def validateGraph (vertices : List Vertex) (edges : List Edge) : Prop :=
  ∀ e ∈ edges, e.«from» ∈ vertices ∧ e.«to» ∈ vertices

instance (vertices : List Vertex) (edges : List Edge) :
    Decidable (validateGraph vertices edges) := by
  unfold validateGraph; infer_instance

/-- The `Graph` constructor on well-typed array arguments: the two
`Array.isArray` checks have passed, so only `validateGraph` can fail. -/
def Graph.construct (vertices : List Vertex) (edges : List Edge) :
    Except GError Graph :=
  if validateGraph vertices edges then .ok ⟨vertices, edges⟩
  else .error .validationError

/-! The dynamically-typed face of the constructor, for the claims about
argument validation.  A JS value handed over as a vertex is either a number
or some other primitive (a string suffices for the claims); a non-array
argument is modelled as `none`. -/

inductive JSVal where
  | num (q : ℚ)
  | str (s : String)
deriving DecidableEq

structure JSEdge where
  «from» : JSVal
  «to» : JSVal
  weight : Option ℚ := none
deriving DecidableEq

structure JSGraph where
  vertices : List JSVal
  edges : List JSEdge
deriving DecidableEq

def jsValidate (vertices : List JSVal) (edges : List JSEdge) : Prop :=
  ∀ e ∈ edges, e.«from» ∈ vertices ∧ e.«to» ∈ vertices

instance (vertices : List JSVal) (edges : List JSEdge) :
    Decidable (jsValidate vertices edges) := by
  unfold jsValidate; infer_instance

/-- The constructor as written: it checks `Array.isArray(vertices)` and
`Array.isArray(edges)` (throwing `GraphArgumentError`), stores frozen copies
and runs `validateGraph`; the elements themselves are never inspected beyond
the endpoint-membership test. -/
def jsConstruct (verticesArg : Option (List JSVal))
    (edgesArg : Option (List JSEdge)) : Except GError JSGraph :=
  match verticesArg, edgesArg with
  | none, _ => .error .argumentError
  | some _, none => .error .argumentError
  | some vs, some es =>
      if jsValidate vs es then .ok ⟨vs, es⟩ else .error .validationError

/-! Representation converters used by the claims. -/

/-- `fromDisMatrix`: a square matrix of nullable numbers; every non-null
off-diagonal cell `(i, j)` yields an edge object `{from: i, to: j, distance}`
— note the property written by the source is `distance`, not `weight`. -/
def Graph.fromDisMatrix (matrix : List (List (Option ℚ))) :
    Except GError Graph :=
  if matrix.length > 0 ∧ ¬ (∀ row ∈ matrix, row.length = matrix.length) then
    .error .argumentError
  else
    Graph.construct ((List.range matrix.length).map Int.ofNat)
      (matrix.enum.flatMap fun p =>
        p.2.enum.filterMap fun q =>
          if p.1 ≠ q.1 ∧ q.2 ≠ none then
            some { «from» := Int.ofNat p.1, «to» := Int.ofNat q.1,
                   distance := q.2 }
          else none)

inductive Side where
  | left
  | right
deriving DecidableEq

/-- `fromIncList` on a well-typed incidence map, given as an association list
(JS `Object.entries` order).  The source builds, for `side === 'left'`, the
edge `{from: +value, to: +key}` and for `'right'` the edge
`{from: +key, to: +value}`, then runs the validating constructor. -/
def Graph.fromIncList (list : List (Vertex × List Vertex)) (side : Side) :
    Except GError Graph :=
  Graph.construct (list.map Prod.fst)
    (list.flatMap fun kv =>
      kv.2.map fun value =>
        match side with
        | .left => { «from» := value, «to» := kv.1 }
        | .right => { «from» := kv.1, «to» := value })

/-! Serialization.  `asJSON` stringifies `asObject` and `fromJSON` parses the
text back; `JSON.parse ∘ JSON.stringify` is the identity on records of
finite numbers with optional fields, so the textual layer is modelled as the
`IGraphData` payload itself.  `fromJSON` then checks that both fields are
arrays (always true of a stringified payload) and re-runs the validating
constructor. -/

structure IGraphData where
  vertices : List Vertex
  edges : List Edge
deriving DecidableEq

def Graph.asObject (g : Graph) : IGraphData := ⟨g.vertices, g.edges⟩

def Graph.asJSON (g : Graph) : IGraphData := g.asObject

def Graph.fromJSON (data : IGraphData) : Except GError Graph :=
  Graph.construct data.vertices data.edges

/-! Mutation methods.  Each either returns `this` (the same value) or builds
a fresh `Graph`; re-validation inside `new Graph(...)` always succeeds for
these calls, so the fresh value is written directly. -/

def Graph.withVertex (g : Graph) (v : Vertex) : Graph :=
  if v ∈ g.vertices then g else ⟨g.vertices ++ [v], g.edges⟩

def Graph.withoutVertex (g : Graph) (v : Vertex) : Graph :=
  if v ∈ g.vertices then
    ⟨g.vertices.filter (fun w => w ≠ v),
     g.edges.filter (fun e => e.«from» ≠ v ∧ e.«to» ≠ v)⟩
  else g

/-- Endpoint-pair presence test used by `withEdge` / `withoutEdge`
(`this._edges.some(e => e.from === edge.from && e.to === edge.to)`). -/
def edgePresent (edges : List Edge) (e : Edge) : Prop :=
  ∃ e2 ∈ edges, e2.«from» = e.«from» ∧ e2.«to» = e.«to»

instance (edges : List Edge) (e : Edge) : Decidable (edgePresent edges e) := by
  unfold edgePresent; infer_instance

def Graph.withEdge (g : Graph) (e : Edge) : Except GError Graph :=
  if e.«from» ∈ g.vertices then
    if e.«to» ∈ g.vertices then
      if edgePresent g.edges e then .ok g
      else .ok ⟨g.vertices, g.edges ++ [e]⟩
    else .error .validationError
  else .error .validationError

def Graph.withoutEdge (g : Graph) (e : Edge) : Except GError Graph :=
  if e.«from» ∈ g.vertices then
    if e.«to» ∈ g.vertices then
      if edgePresent g.edges e then
        .ok ⟨g.vertices,
             g.edges.filter (fun e2 => e2.«from» ≠ e.«from» ∨ e2.«to» ≠ e.«to»)⟩
      else .ok g
    else .error .validationError
  else .error .validationError

/-! Shortest-path engine. -/

abbrev DistMap := Vertex → WithTop ℚ

/-- Effective weight of an optional weight, as the JS expression
`weight || 1` computes it: an absent weight and an explicit `0` both
collapse to `1`; any other number is itself. -/
def effWP (w : Option ℚ) : ℚ :=
  match w with
  | none => 1
  | some x => if x = 0 then 1 else x

def effW (e : Edge) : ℚ := effWP e.weight

/-- Record update `distances[key] = value`. -/
def updD (d : DistMap) (k : Vertex) (x : WithTop ℚ) : DistMap :=
  fun v => if v = k then x else d v

/-- Initialisation `vertex === start ? 0 : Infinity`, total over `Vertex`
(the JS record only holds keys for graph vertices, which is where all reads
happen). -/
def initDist (start : Vertex) : DistMap :=
  fun v => if v = start then 0 else ⊤

/-- The body of the relaxation loop:
`if (distances[from] !== Infinity && distances[from] + (weight || 1) <
distances[to]) distances[to] = distances[from] + (weight || 1)`. -/
def relaxStep (d : DistMap) (e : Edge) : DistMap :=
  if d e.«from» ≠ ⊤ ∧ d e.«from» + (effW e : WithTop ℚ) < d e.«to» then
    updD d e.«to» (d e.«from» + (effW e : WithTop ℚ))
  else d

/-- One full pass of edge relaxation — one Bellman-Ford round. -/
def relaxAll (es : List Edge) (d : DistMap) : DistMap :=
  es.foldl relaxStep d

/-- The negative-cycle detection pass: some edge still admits an
improvement after the `|V|-1` rounds. -/
def hasImprovement (es : List Edge) (d : DistMap) : Prop :=
  ∃ e ∈ es, d e.«from» ≠ ⊤ ∧ d e.«from» + (effW e : WithTop ℚ) < d e.«to»

instance (es : List Edge) (d : DistMap) : Decidable (hasImprovement es d) := by
  unfold hasImprovement; infer_instance

def Graph.bellmanFord (g : Graph) (start : Vertex) : Except GError DistMap :=
  let d := (relaxAll g.edges)^[g.vertices.length - 1] (initDist start)
  if hasImprovement g.edges d then .error .validationError else .ok d

/-- Adjacency-list view at a vertex: the entries of `asAdjList[v]` in edge
order, each carrying the target and the raw optional weight. -/
def Graph.asAdjList (g : Graph) (v : Vertex) : List (Vertex × Option ℚ) :=
  (g.edges.filter (fun e => e.«from» = v)).map fun e => (e.«to», e.weight)

/-- Model of `MinPriorityQueue.dequeue`: remove the entry with minimal
priority (the first such entry on ties). -/
def extractMin :
    List (Vertex × WithTop ℚ) →
      Option ((Vertex × WithTop ℚ) × List (Vertex × WithTop ℚ))
  | [] => none
  | x :: rest =>
    match extractMin rest with
    | none => some (x, [])
    | some (m, rest2) =>
        if x.2 ≤ m.2 then some (x, rest) else some (m, x :: rest2)

/-- The body of the Dijkstra neighbour loop for the dequeued vertex `v`:
relax `distances[target]` through `v` and enqueue the improved entry. -/
def dijkstraStep (v : Vertex)
    (st : List (Vertex × WithTop ℚ) × DistMap) (p : Vertex × Option ℚ) :
    List (Vertex × WithTop ℚ) × DistMap :=
  if st.2 v ≠ ⊤ ∧ st.2 v + (effWP p.2 : WithTop ℚ) < st.2 p.1 then
    let d2 := updD st.2 p.1 (st.2 v + (effWP p.2 : WithTop ℚ))
    (st.1 ++ [(p.1, d2 p.1)], d2)
  else st

/-- The Dijkstra main loop.  The JS `while (!queue.isEmpty())` is bounded
here by a fuel parameter; the initial fuel chosen below covers every run in
which the loop terminates within `(|V|+1)·(|E|+1)` dequeues, which holds in
the non-negative-weight regime the engine uses it for. -/
def dijkstraLoop (adj : Vertex → List (Vertex × Option ℚ)) :
    Nat → List (Vertex × WithTop ℚ) → DistMap → DistMap
  | 0, _, d => d
  | fuel + 1, queue, d =>
    match extractMin queue with
    | none => d
    | some (top, queue2) =>
      let st := (adj top.1).foldl (dijkstraStep top.1) (queue2, d)
      dijkstraLoop adj fuel st.1 st.2

def Graph.dijkstra (g : Graph) (start : Vertex) : DistMap :=
  dijkstraLoop g.asAdjList ((g.vertices.length + 1) * (g.edges.length + 1))
    [(start, 0)] (initDist start)

/-- `Math.max(...vertices) + 1` for a nonempty vertex list (the empty spread
would give `-Infinity` in JS; `johnson` is only meaningful on nonempty
graphs). -/
def maxVertex : List Vertex → Vertex
  | [] => 0
  | v :: vs => vs.foldl max v + 1

def untop0 (x : WithTop ℚ) : ℚ := x.untop' 0

/-- Reweighting `w'(u,v) = (w || 1) + h(u) - h(v)` of one edge, `h` being
the Bellman-Ford map from the virtual vertex (finite on every original
vertex, hence the defaulting extraction `untop0` is exact there). -/
def reweightEdge (h : DistMap) (e : Edge) : Edge :=
  { e with weight := some (effW e + untop0 (h e.«from») - untop0 (h e.«to»)) }

/-- Johnson's algorithm exactly as the source computes it. The augmented
graph gains the virtual vertex `q` with a `weight: 0` edge to every original
vertex; `h` is the Bellman-Ford distance map from `q`; the final recovery reuses the per-source Dijkstra map for both occurrences
of `distances`, mirroring the variable reuse in the source. -/
def Graph.johnson (g : Graph) : Except GError (Vertex → Vertex → WithTop ℚ) :=
  let q : Vertex := maxVertex g.vertices
  let vertices2 := g.vertices ++ [q]
  let edges2 := g.edges ++ (vertices2.filter (fun v => v ≠ q)).map
      (fun v => { «from» := q, «to» := v, weight := some 0 })
  match Graph.bellmanFord ⟨vertices2, edges2⟩ q with
  | .error _ => .error .validationError
  | .ok h =>
    let reweighted : Graph := ⟨g.vertices, g.edges.map (reweightEdge h)⟩
    .ok fun u v =>
      let d := reweighted.dijkstra u
      if d v = ⊤ then ⊤
      else ((untop0 (d v) + untop0 (d v) - untop0 (d u) : ℚ) : WithTop ℚ)

/-! Hierarchy leveling (Kahn's algorithm). -/

/-- Iteration order of `new Set(list)`: first occurrences, in order. -/
def jsDedup : List Vertex → List Vertex
  | [] => []
  | v :: rest => v :: (jsDedup rest).filter (fun w => w ≠ v)

def updFn (f : Vertex → Int) (k : Vertex) (x : Int) : Vertex → Int :=
  fun v => if v = k then x else f v

/-- In-degree map: every vertex starts at `0`, then every edge increments
its target. -/
def initInDegree (es : List Edge) : Vertex → Int :=
  es.foldl (fun f e => updFn f e.«to» (f e.«to» + 1)) (fun _ => 0)

/-- Removing one level vertex: delete it from the remaining set, then walk
all edges decrementing the in-degree of targets still remaining. -/
def hlDec (v : Vertex) (left2 : List Vertex) (deg : Vertex → Int) (e : Edge) :
    Vertex → Int :=
  if e.«from» = v ∧ e.«to» ∈ left2 then updFn deg e.«to» (deg e.«to» - 1)
  else deg

def hlRemove (es : List Edge) (st : List Vertex × (Vertex → Int)) (v : Vertex) :
    List Vertex × (Vertex → Int) :=
  let left2 := st.1.filter (fun w => w ≠ v)
  (left2, es.foldl (hlDec v left2) st.2)

/-- The `while (verticesLeft.size > 0)` loop.  Fuel bounds the iteration
count; every non-failing iteration removes at least one remaining vertex, so
the initial fuel `|verticesLeft| + 1` used by `Graph.HL` makes the `0` case
unreachable. -/
def hlLoop (es : List Edge) :
    Nat → List Vertex → (Vertex → Int) → Except GError (List (List Vertex))
  | 0, _, _ => .error .validationError
  | fuel + 1, left, deg =>
    if left = [] then .ok []
    else
      let level := left.filter (fun v => deg v = 0)
      if level = [] then .error .validationError
      else
        let st := level.foldl (hlRemove es) (left, deg)
        (hlLoop es fuel st.1 st.2).map (fun rest => level :: rest)

def Graph.HL (g : Graph) : Except GError (List (List Vertex)) :=
  if g.vertices = [] then .error .validationError
  else
    hlLoop g.edges ((jsDedup g.vertices).length + 1) (jsDedup g.vertices)
      (initInDegree g.edges)

/-! Walks, for stating shortest-path correctness. -/

/-- A directed walk along edges of `es` from one vertex to another, recorded
as the list of traversed edges. -/
inductive IsWalk (es : List Edge) : Vertex → Vertex → List Edge → Prop
  | nil (v : Vertex) : IsWalk es v v []
  | cons {v : Vertex} {e : Edge} {p : List Edge} (he : e ∈ es)
      (hp : IsWalk es e.«to» v p) : IsWalk es e.«from» v (e :: p)

/-- Total effective weight of a walk. -/
def walkWeight (p : List Edge) : ℚ := (p.map effW).sum

/-! Definitions for comparing the code's weight defaulting with the
specified one. -/

/-- Modelled from the spec: the effective weight `weight ?? 1` — an absent
weight defaults to `1` and every explicit weight, including `0`, is used as
its own value. -/
def effWSpec (w : Option ℚ) : ℚ := w.getD 1

/-- Modelled from the spec: a Bellman-Ford round under `weight ?? 1`. -/
def relaxAllSpec (es : List Edge) (d : DistMap) : DistMap :=
  es.foldl
    (fun d e =>
      if d e.«from» ≠ ⊤ ∧
          d e.«from» + (effWSpec e.weight : WithTop ℚ) < d e.«to» then
        updD d e.«to» (d e.«from» + (effWSpec e.weight : WithTop ℚ))
      else d) d

/-- Projection of an edge to the data the relaxation loops consume: source,
target, and effective weight. -/
def edgeKey (e : Edge) : Vertex × Vertex × ℚ :=
  (e.«from», e.«to», effW e)

/-- Projection of an adjacency-list entry to the data the Dijkstra loop
consumes: target and effective weight. -/
def pairKey (p : Vertex × Option ℚ) : Vertex × ℚ :=
  (p.1, effWP p.2)

/-- Modelled from the spec: the detection pass under `weight ?? 1`. -/
def hasImprovementSpec (es : List Edge) (d : DistMap) : Prop :=
  ∃ e ∈ es, d e.«from» ≠ ⊤ ∧
    d e.«from» + (effWSpec e.weight : WithTop ℚ) < d e.«to»

instance (es : List Edge) (d : DistMap) : Decidable (hasImprovementSpec es d) := by
  unfold hasImprovementSpec; infer_instance

/-- Modelled from the spec: Bellman-Ford under `weight ?? 1`, for the
comparison with the implemented `weight || 1` variant. -/
def Graph.bellmanFordSpec (g : Graph) (start : Vertex) : Except GError DistMap :=
  let d := (relaxAllSpec g.edges)^[g.vertices.length - 1] (initDist start)
  if hasImprovementSpec g.edges d then .error .validationError else .ok d

/-- Rewriting every edge weight to its effective value (the explicit
"effective weight accessor" the claims quantify over). -/
def normEdge (e : Edge) : Edge := { e with weight := some (effW e) }

def Graph.normalizeWeights (g : Graph) : Graph :=
  ⟨g.vertices, g.edges.map normEdge⟩

/-! Theorems about the claims. -/

/-- Claim C1 (refuted; code bug): the claim states
`johnson()[u][v] = dijkstra(u)[v]` on non-negative-weight graphs via the
textbook recovery `d(u,v) = d'(u,v) − h(u) + h(v)`.  The source instead
reuses the Dijkstra map for both sides of the recovery
(`distances[to] + distances[to] - distances[from]`), doubling every finite
off-diagonal distance: on the single-edge graph `0 →(5) 1`, Johnson reports
`10` while Dijkstra from `0` reports `5`. -/
theorem johnson_reuses_dijkstra_map_bug :
    (Graph.johnson ⟨[0, 1], [⟨0, 1, some 5, none⟩]⟩).map (fun r => r 0 1) =
        .ok (10 : WithTop ℚ) ∧
    Graph.dijkstra ⟨[0, 1], [⟨0, 1, some 5, none⟩]⟩ 0 1 = (5 : WithTop ℚ) := by
  constructor <;> with_unfolding_all decide

/-- Claim C2 (refuted; code bug): the claim (and the class's own
`asLeftIncList` / `getLeftIncList` convention, and the earlier revision of
this file) makes `left` mean "key is the edge source".  The shipped
`fromIncList` builds `{from: +value, to: +key}` for `left`, i.e. the key is
the *target*: on the map `{0: [1], 1: []}` the `left` orientation yields the
edge `1 → 0` and the `right` orientation yields `0 → 1`, each the reverse of
the claimed orientation. -/
theorem fromIncList_orientation_bug :
    Graph.fromIncList [(0, [1]), (1, [])] .left =
        .ok ⟨[0, 1], [⟨1, 0, none, none⟩]⟩ ∧
    Graph.fromIncList [(0, [1]), (1, [])] .right =
        .ok ⟨[0, 1], [⟨0, 1, none, none⟩]⟩ := by
  constructor <;> decide

/-- Claim C3 (refuted; code bug): the claim states that `fromDisMatrix`
stores the cell value as the edge's *weight* and that the shortest-path
algorithms consume it.  The source writes the cell under a `distance`
property (absent from the declared `Edge` type — the expression only
compiles because of an `as Edge[]` cast) and leaves `weight` unset, so every
algorithm falls back to the default weight `1`: from the matrix
`[[null, 5], [null, null]]` the produced edge carries `distance: 5` and no
weight, and Bellman-Ford computes distance `1`, not `5`, from `0` to `1`. -/
theorem fromDisMatrix_distance_field_bug :
    Graph.fromDisMatrix [[none, some 5], [none, none]] =
        .ok ⟨[0, 1], [⟨0, 1, none, some 5⟩]⟩ ∧
    (Graph.bellmanFord ⟨[0, 1], [⟨0, 1, none, some 5⟩]⟩ 0).map (fun d => d 1) =
        .ok (1 : WithTop ℚ) := by
  refine ⟨by decide, ?_⟩
  with_unfolding_all decide

/-- Claim C5, counterexample: the claim states the effective weight is
`weight ?? 1`, under which an explicit weight `0` is used as `0`.  The
source computes `weight || 1`, which maps an explicit `0` to `1`: on the
single-edge graph `0 →(0) 1`, the implemented Bellman-Ford returns distance
`1` where the specified `?? 1` semantics returns `0`. -/
theorem zero_weight_treated_as_one_counterexample :
    (Graph.bellmanFord ⟨[0, 1], [⟨0, 1, some 0, none⟩]⟩ 0).map (fun d => d 1) =
        .ok (1 : WithTop ℚ) ∧
    (Graph.bellmanFordSpec ⟨[0, 1], [⟨0, 1, some 0, none⟩]⟩ 0).map
        (fun d => d 1) = .ok (0 : WithTop ℚ) := by
  constructor <;> with_unfolding_all decide

/-- Claim C4, counterexample: the claim states construction fails with
`ArgumentError` whenever a supplied vertex is not an integer; the
constructor never inspects the vertex elements, so the string vertex `"a"`
is accepted. -/
theorem construct_accepts_noninteger_vertex :
    jsConstruct (some [JSVal.str "a"]) (some []) =
      .ok ⟨[JSVal.str "a"], []⟩ := by
  decide

/-- Claim C4 (amended): `Construct(vertices, edges)` fails with
`ArgumentError` exactly when `vertices` or `edges` is not an array; the
elements are never type-checked at construction (a non-integer vertex or a
non-integer edge endpoint is accepted), and with both arguments arrays the
result is the stored graph when every edge endpoint occurs among the
vertices and a `ValidationError` otherwise. -/
theorem construct_validation_amended :
    ∀ (esArg : Option (List JSEdge)) (vs : List JSVal) (es : List JSEdge),
      jsConstruct none esArg = .error .argumentError ∧
      jsConstruct (some vs) none = .error .argumentError ∧
      jsConstruct (some vs) (some es) ≠ .error .argumentError ∧
      (jsValidate vs es → jsConstruct (some vs) (some es) = .ok ⟨vs, es⟩) ∧
      (¬ jsValidate vs es →
        jsConstruct (some vs) (some es) = .error .validationError) := by
  intro esArg vs es
  refine ⟨rfl, rfl, ?_, fun h => ?_, fun h => ?_⟩
  · unfold jsConstruct
    split <;> simp_all
    split <;> simp
  · simp [jsConstruct, h]
  · simp [jsConstruct, h]

theorem construct_validation_amended_witness :
    jsValidate [JSVal.num 0] [] ∧
      jsConstruct (some [JSVal.num 0]) (some []) = .ok ⟨[JSVal.num 0], []⟩ :=
  ⟨by decide,
   (construct_validation_amended none [JSVal.num 0] []).2.2.2.1 (by decide)⟩

/-- Claim C9: deserializing the serialized form of any valid graph
reconstructs the graph itself — in particular the vertex and edge sequences
are preserved, in order.  (`JSON.parse ∘ JSON.stringify` is the identity on
the `{vertices, edges}` payload, so serialization is modelled by the payload
itself.) -/
theorem fromJSON_asJSON_roundtrip :
    ∀ g : Graph, validateGraph g.vertices g.edges →
      Graph.fromJSON g.asJSON = .ok g := by
  intro g h
  simp [Graph.fromJSON, Graph.asJSON, Graph.asObject, Graph.construct, h]

theorem fromJSON_asJSON_roundtrip_witness :
    validateGraph [0, 1] [⟨0, 1, some 2, none⟩] ∧
      Graph.fromJSON (Graph.asJSON ⟨[0, 1], [⟨0, 1, some 2, none⟩]⟩) =
        .ok ⟨[0, 1], [⟨0, 1, some 2, none⟩]⟩ :=
  ⟨by decide, fromJSON_asJSON_roundtrip ⟨[0, 1], [⟨0, 1, some 2, none⟩]⟩
    (by decide)⟩

/-- Claim C6: each mutation returns the existing value `g` itself exactly
when the requested change is a no-op — `withVertex(v)` iff `v` is already
present (otherwise the vertex count grows by exactly one), `withoutVertex(v)`
iff `v` is absent, and, for an edge whose endpoints are present,
`withEdge(e)` iff an edge with `e`'s endpoint pair is already present
(otherwise the edge count grows by exactly one) and `withoutEdge(e)` iff no
such edge is present — and otherwise a new, distinct Graph value is built
(the embedded operations are pure, so `g` itself is never altered).  Edge
presence is the endpoint-pair test the source uses, cf. claim C10. -/
theorem mutation_noop_identity :
    ∀ (g : Graph) (v : Vertex) (e : Edge),
      (g.withVertex v = g ↔ v ∈ g.vertices) ∧
      (v ∉ g.vertices →
        (g.withVertex v).vertices.length = g.vertices.length + 1) ∧
      (g.withoutVertex v = g ↔ v ∉ g.vertices) ∧
      (e.«from» ∈ g.vertices → e.«to» ∈ g.vertices →
        (g.withEdge e = .ok g ↔ edgePresent g.edges e) ∧
        (¬ edgePresent g.edges e →
          g.withEdge e = .ok ⟨g.vertices, g.edges ++ [e]⟩ ∧
          (⟨g.vertices, g.edges ++ [e]⟩ : Graph) ≠ g ∧
          (g.edges ++ [e]).length = g.edges.length + 1) ∧
        (g.withoutEdge e = .ok g ↔ ¬ edgePresent g.edges e) ∧
        (edgePresent g.edges e →
          g.withoutEdge e =
            .ok ⟨g.vertices, g.edges.filter
              (fun e2 => e2.«from» ≠ e.«from» ∨ e2.«to» ≠ e.«to»)⟩ ∧
          (⟨g.vertices, g.edges.filter
              (fun e2 => e2.«from» ≠ e.«from» ∨ e2.«to» ≠ e.«to»)⟩ : Graph)
            ≠ g)) := by
  intro g v e
  refine ⟨?_, ?_, ?_, ?_⟩
  · constructor
    · intro h
      by_contra hv
      have := congrArg (fun x => x.vertices.length) h
      simp [Graph.withVertex, hv] at this
    · intro h
      simp [Graph.withVertex, h]
  · intro h
    simp [Graph.withVertex, h]
  · constructor
    · intro h
      by_contra hv
      have := congrArg Graph.vertices h
      simp [Graph.withoutVertex, hv] at this
      exact this v hv rfl
    · intro h
      simp [Graph.withoutVertex, h]
  · intro hf ht
    refine ⟨?_, ?_, ?_, ?_⟩
    · by_cases hp : edgePresent g.edges e
      · simp [Graph.withEdge, hf, ht, hp]
      · simp only [Graph.withEdge, if_pos hf, if_pos ht, if_neg hp]
        simp only [Except.ok.injEq]
        constructor
        · intro h
          exact absurd (congrArg (fun x => x.edges.length) h) (by simp)
        · intro h
          exact absurd h hp
    · intro hp
      refine ⟨by simp [Graph.withEdge, hf, ht, hp], ?_, by simp⟩
      intro h
      exact absurd (congrArg (fun x => x.edges.length) h) (by simp)
    · by_cases hp : edgePresent g.edges e
      · simp only [Graph.withoutEdge, if_pos hf, if_pos ht, if_pos hp]
        simp only [Except.ok.injEq]
        constructor
        · intro h
          obtain ⟨e2, he2, hfrom, hto⟩ := hp
          have : e2 ∈ g.edges.filter
              (fun e2 => e2.«from» ≠ e.«from» ∨ e2.«to» ≠ e.«to») := by
            have := congrArg Graph.edges h
            simp only at this
            rw [← this] at he2
            exact he2
          simp [hfrom, hto] at this
        · intro h
          exact absurd hp h
      · simp [Graph.withoutEdge, hf, ht, hp]
    · intro hp
      refine ⟨by simp [Graph.withoutEdge, hf, ht, hp], ?_⟩
      intro h
      obtain ⟨e2, he2, hfrom, hto⟩ := hp
      have : e2 ∈ g.edges.filter
          (fun e2 => e2.«from» ≠ e.«from» ∨ e2.«to» ≠ e.«to») := by
        have := congrArg Graph.edges h
        simp only at this
        rw [← this] at he2
        exact he2
      simp [hfrom, hto] at this

theorem mutation_noop_identity_witness :
    (0 : Vertex) ∈ ([0, 1] : List Vertex) ∧
    Graph.withVertex ⟨[0, 1], []⟩ 0 = ⟨[0, 1], []⟩ ∧
    Graph.withEdge ⟨[0, 1], [⟨0, 1, none, none⟩]⟩ ⟨0, 1, some 7, none⟩ =
      .ok ⟨[0, 1], [⟨0, 1, none, none⟩]⟩ :=
  ⟨by decide,
   (mutation_noop_identity ⟨[0, 1], []⟩ 0 ⟨0, 1, none, none⟩).1.mpr
     (by decide),
   (((mutation_noop_identity ⟨[0, 1], [⟨0, 1, none, none⟩]⟩ 0
       ⟨0, 1, some 7, none⟩).2.2.2 (by decide) (by decide)).1).mpr
     (by with_unfolding_all decide)⟩

/-- Claim C10: `withEdge` and `withoutEdge` decide presence by the
`(from, to)` endpoint pair alone, ignoring weights: when some stored edge
shares `e`'s endpoints, `withEdge e` returns `g` itself unchanged even for a
differing (or absent) weight on `e`, and `withoutEdge e` removes exactly the
stored edges with those endpoints, whatever their weights. -/
theorem edge_presence_by_endpoints :
    ∀ (g : Graph) (e e2 : Edge),
      e2 ∈ g.edges → e2.«from» = e.«from» → e2.«to» = e.«to» →
      e.«from» ∈ g.vertices → e.«to» ∈ g.vertices →
      g.withEdge e = .ok g ∧
      g.withoutEdge e =
        .ok ⟨g.vertices, g.edges.filter
          (fun x => x.«from» ≠ e.«from» ∨ x.«to» ≠ e.«to»)⟩ := by
  intro g e e2 he2 hfrom hto hf ht
  have hp : edgePresent g.edges e := ⟨e2, he2, hfrom, hto⟩
  exact ⟨by simp [Graph.withEdge, hf, ht, hp],
         by simp [Graph.withoutEdge, hf, ht, hp]⟩

theorem edge_presence_by_endpoints_witness :
    Graph.withEdge ⟨[0, 1], [⟨0, 1, some 3, none⟩]⟩ ⟨0, 1, some 7, none⟩ =
        .ok ⟨[0, 1], [⟨0, 1, some 3, none⟩]⟩ ∧
    Graph.withoutEdge ⟨[0, 1], [⟨0, 1, some 3, none⟩]⟩ ⟨0, 1, none, none⟩ =
        .ok ⟨[0, 1], []⟩ := by
  have h := edge_presence_by_endpoints ⟨[0, 1], [⟨0, 1, some 3, none⟩]⟩
    ⟨0, 1, some 7, none⟩ ⟨0, 1, some 3, none⟩ (by decide) (by decide)
    (by decide) (by decide) (by decide)
  have h2 := edge_presence_by_endpoints ⟨[0, 1], [⟨0, 1, some 3, none⟩]⟩
    ⟨0, 1, none, none⟩ ⟨0, 1, some 3, none⟩ (by decide) (by decide)
    (by decide) (by decide) (by decide)
  refine ⟨h.1, ?_⟩
  have := h2.2
  rw [this]
  with_unfolding_all decide

/-! Helper lemmas: the relaxation machinery consumes an edge only through
`edgeKey` (source, target, effective weight), and the Dijkstra loop consumes
an adjacency entry only through `pairKey`. -/

theorem effWP_idem (w : Option ℚ) : effWP (some (effWP w)) = effWP w := by
  unfold effWP
  cases w with
  | none => norm_num
  | some x =>
    by_cases h : x = 0
    · simp [h]
    · simp [h]

theorem effW_normEdge (e : Edge) : effW (normEdge e) = effW e := by
  unfold effW normEdge
  exact effWP_idem e.weight

theorem edgeKey_normEdge (e : Edge) : edgeKey (normEdge e) = edgeKey e := by
  unfold edgeKey
  rw [effW_normEdge]
  rfl

theorem relaxStep_key {e1 e2 : Edge} (h : edgeKey e1 = edgeKey e2)
    (d : DistMap) : relaxStep d e1 = relaxStep d e2 := by
  have h1 : e1.«from» = e2.«from» := congrArg (fun k => k.1) h
  have h2 : e1.«to» = e2.«to» := congrArg (fun k => k.2.1) h
  have h3 : effW e1 = effW e2 := congrArg (fun k => k.2.2) h
  unfold relaxStep
  rw [h1, h2, h3]

theorem relaxAll_key : ∀ (es1 es2 : List Edge),
    es1.map edgeKey = es2.map edgeKey → ∀ d, relaxAll es1 d = relaxAll es2 d := by
  intro es1
  induction es1 with
  | nil =>
    intro es2 h d
    cases es2 with
    | nil => rfl
    | cons => simp at h
  | cons e1 t1 ih =>
    intro es2 h d
    cases es2 with
    | nil => simp at h
    | cons e2 t2 =>
      simp only [List.map_cons, List.cons.injEq] at h
      unfold relaxAll
      simp only [List.foldl_cons]
      rw [relaxStep_key h.1 d]
      exact ih t2 h.2 (relaxStep d e2)

theorem hasImprovement_iff_key (es : List Edge) (d : DistMap) :
    hasImprovement es d ↔
      ∃ k ∈ es.map edgeKey,
        d k.1 ≠ ⊤ ∧ d k.1 + (k.2.2 : WithTop ℚ) < d k.2.1 := by
  unfold hasImprovement
  constructor
  · rintro ⟨e, he, h⟩
    exact ⟨edgeKey e, List.mem_map_of_mem _ he, h⟩
  · rintro ⟨k, hk, h⟩
    rw [List.mem_map] at hk
    obtain ⟨e, he, rfl⟩ := hk
    exact ⟨e, he, h⟩

theorem bellmanFord_key {g1 g2 : Graph} (hv : g1.vertices = g2.vertices)
    (he : g1.edges.map edgeKey = g2.edges.map edgeKey) (start : Vertex) :
    g1.bellmanFord start = g2.bellmanFord start := by
  unfold Graph.bellmanFord
  have hrel : relaxAll g1.edges = relaxAll g2.edges :=
    funext fun d => relaxAll_key _ _ he d
  have himp : ∀ d : DistMap,
      hasImprovement g1.edges d ↔ hasImprovement g2.edges d := by
    intro d
    rw [hasImprovement_iff_key, hasImprovement_iff_key, he]
  simp only [hv, hrel, himp]

theorem dijkstraStep_pairKey (v : Vertex) {p1 p2 : Vertex × Option ℚ}
    (h : pairKey p1 = pairKey p2)
    (st : List (Vertex × WithTop ℚ) × DistMap) :
    dijkstraStep v st p1 = dijkstraStep v st p2 := by
  have h1 : p1.1 = p2.1 := congrArg (fun k => k.1) h
  have h2 : effWP p1.2 = effWP p2.2 := congrArg (fun k => k.2) h
  unfold dijkstraStep
  rw [h1, h2]

theorem foldl_dijkstraStep_key (v : Vertex) :
    ∀ (l1 l2 : List (Vertex × Option ℚ)),
      l1.map pairKey = l2.map pairKey →
      ∀ st, l1.foldl (dijkstraStep v) st = l2.foldl (dijkstraStep v) st := by
  intro l1
  induction l1 with
  | nil =>
    intro l2 h st
    cases l2 with
    | nil => rfl
    | cons => simp at h
  | cons p1 t1 ih =>
    intro l2 h st
    cases l2 with
    | nil => simp at h
    | cons p2 t2 =>
      simp only [List.map_cons, List.cons.injEq] at h
      simp only [List.foldl_cons]
      rw [dijkstraStep_pairKey v h.1 st]
      exact ih t2 h.2 (dijkstraStep v st p2)

theorem dijkstraLoop_key {adj1 adj2 : Vertex → List (Vertex × Option ℚ)}
    (h : ∀ v, (adj1 v).map pairKey = (adj2 v).map pairKey) :
    ∀ (n : Nat) (q : List (Vertex × WithTop ℚ)) (d : DistMap),
      dijkstraLoop adj1 n q d = dijkstraLoop adj2 n q d := by
  intro n
  induction n with
  | zero => intro q d; rfl
  | succ n ih =>
    intro q d
    unfold dijkstraLoop
    cases hq : extractMin q with
    | none => rfl
    | some pr =>
      simp only
      rw [foldl_dijkstraStep_key pr.1.1 _ _ (h pr.1.1) (pr.2, d)]
      exact ih _ _

theorem asAdjList_key : ∀ (es1 es2 : List Edge),
    es1.map edgeKey = es2.map edgeKey → ∀ v,
      ((es1.filter (fun e => e.«from» = v)).map
          (fun e => (e.«to», e.weight))).map pairKey =
      ((es2.filter (fun e => e.«from» = v)).map
          (fun e => (e.«to», e.weight))).map pairKey := by
  intro es1
  induction es1 with
  | nil =>
    intro es2 h v
    cases es2 with
    | nil => rfl
    | cons => simp at h
  | cons e1 t1 ih =>
    intro es2 h v
    cases es2 with
    | nil => simp at h
    | cons e2 t2 =>
      simp only [List.map_cons, List.cons.injEq] at h
      obtain ⟨hk, ht⟩ := h
      have h1 : e1.«from» = e2.«from» := congrArg (fun k => k.1) hk
      have h2 : e1.«to» = e2.«to» := congrArg (fun k => k.2.1) hk
      have h3 : effW e1 = effW e2 := congrArg (fun k => k.2.2) hk
      simp only [List.filter_cons]
      by_cases hc : e1.«from» = v
      · rw [if_pos (by simpa using hc), if_pos (by simpa [← h1] using hc)]
        simp only [List.map_cons]
        rw [ih t2 ht v]
        have : pairKey (e1.«to», e1.weight) = pairKey (e2.«to», e2.weight) := by
          unfold pairKey
          simp only
          rw [h2]
          exact congrArg _ h3
        rw [this]
      · rw [if_neg (by simpa using hc), if_neg (by simpa [← h1] using hc)]
        exact ih t2 ht v

theorem dijkstra_key {g1 g2 : Graph} (hv : g1.vertices = g2.vertices)
    (he : g1.edges.map edgeKey = g2.edges.map edgeKey) (start : Vertex) :
    g1.dijkstra start = g2.dijkstra start := by
  unfold Graph.dijkstra
  have hlen : g1.edges.length = g2.edges.length := by
    have := congrArg List.length he
    simpa using this
  rw [hv, hlen]
  exact dijkstraLoop_key (fun v => asAdjList_key g1.edges g2.edges he v) _ _ _

theorem map_edgeKey_normEdge (es : List Edge) :
    (es.map normEdge).map edgeKey = es.map edgeKey := by
  rw [List.map_map]
  exact List.map_congr_left fun e _ => edgeKey_normEdge e

theorem except_match_congr {α β γ : Type} {x : Except α β} {err : γ}
    {f1 f2 : β → γ} (h : ∀ b, f1 b = f2 b) :
    (match x with
     | .error _ => err
     | .ok b => f1 b) =
    (match x with
     | .error _ => err
     | .ok b => f2 b) := by
  cases x with
  | error a => rfl
  | ok b => exact h b

theorem edgeKey_reweightEdge (h : DistMap) (e : Edge) :
    edgeKey (reweightEdge h e) =
      (fun k : Vertex × Vertex × ℚ =>
        (k.1, k.2.1,
         effWP (some (k.2.2 + untop0 (h k.1) - untop0 (h k.2.1)))))
        (edgeKey e) := rfl

theorem johnson_key {g1 g2 : Graph} (hv : g1.vertices = g2.vertices)
    (he : g1.edges.map edgeKey = g2.edges.map edgeKey) :
    g1.johnson = g2.johnson := by
  unfold Graph.johnson
  dsimp only
  rw [hv]
  have haug : ∀ qe : List Edge,
      (g1.edges ++ qe).map edgeKey = (g2.edges ++ qe).map edgeKey := by
    intro qe
    rw [List.map_append, List.map_append, he]
  set q := maxVertex g2.vertices with hq
  set qes := ((g2.vertices ++ [q]).filter (fun v => v ≠ q)).map
    (fun v => ({ «from» := q, «to» := v, weight := some 0,
                 distance := none } : Edge)) with hqes
  rw [@bellmanFord_key ⟨g2.vertices ++ [q], g1.edges ++ qes⟩
        ⟨g2.vertices ++ [q], g2.edges ++ qes⟩ rfl (haug qes) q]
  cases hres : (⟨g2.vertices ++ [q], g2.edges ++ qes⟩ : Graph).bellmanFord q with
  | error a => rfl
  | ok h =>
  have hrw :
      (g1.edges.map (reweightEdge h)).map edgeKey =
        (g2.edges.map (reweightEdge h)).map edgeKey := by
    have hfun : edgeKey ∘ reweightEdge h =
        (fun k : Vertex × Vertex × ℚ =>
          (k.1, k.2.1,
           effWP (some (k.2.2 + untop0 (h k.1) - untop0 (h k.2.1))))) ∘
          edgeKey :=
      funext fun e => edgeKey_reweightEdge h e
    rw [List.map_map, List.map_map, hfun, ← List.map_map, ← List.map_map, he]
  dsimp only
  congr 1
  funext u v
  simp only [@dijkstra_key ⟨g2.vertices, g1.edges.map (reweightEdge h)⟩
    ⟨g2.vertices, g2.edges.map (reweightEdge h)⟩ rfl hrw]

/-- Claim C5 (amended): every weight-consuming algorithm (Bellman-Ford,
Dijkstra, Johnson) uses the effective weight `weight || 1`: an absent weight
is treated as `1` (never as `0`), an explicit `0` is *also* treated as `1`,
and every other explicit weight — negatives included — is used as its own
value.  Concretely: `effW` is exactly that defaulting, and replacing every
stored weight by its effective value (`normalizeWeights`) changes none of
the three algorithms' results. -/
theorem effective_weight_normalization :
    ∀ (g : Graph) (start : Vertex) (e : Edge) (w : ℚ),
      (e.weight = none → effW e = 1) ∧
      (e.weight = some 0 → effW e = 1) ∧
      (e.weight = some w → w ≠ 0 → effW e = w) ∧
      g.normalizeWeights.bellmanFord start = g.bellmanFord start ∧
      g.normalizeWeights.dijkstra start = g.dijkstra start ∧
      g.normalizeWeights.johnson = g.johnson := by
  intro g start e w
  refine ⟨?_, ?_, ?_, ?_, ?_, ?_⟩
  · intro h
    simp [effW, effWP, h]
  · intro h
    simp [effW, effWP, h]
  · intro h hw
    simp [effW, effWP, h, hw]
  · exact @bellmanFord_key g.normalizeWeights g rfl
      (map_edgeKey_normEdge g.edges) start
  · exact @dijkstra_key g.normalizeWeights g rfl
      (map_edgeKey_normEdge g.edges) start
  · exact @johnson_key g.normalizeWeights g rfl (map_edgeKey_normEdge g.edges)

theorem effective_weight_normalization_witness :
    effW ⟨0, 1, none, none⟩ = 1 ∧
    effW ⟨0, 1, some 0, none⟩ = 1 ∧
    effW ⟨0, 1, some (-2), none⟩ = -2 ∧
    Graph.bellmanFord
        (Graph.normalizeWeights ⟨[0, 1], [⟨0, 1, some 0, none⟩]⟩) 0 =
      Graph.bellmanFord ⟨[0, 1], [⟨0, 1, some 0, none⟩]⟩ 0 :=
  ⟨(effective_weight_normalization ⟨[0, 1], [⟨0, 1, none, none⟩]⟩ 0
      ⟨0, 1, none, none⟩ 1).1 rfl,
   (effective_weight_normalization ⟨[0, 1], [⟨0, 1, some 0, none⟩]⟩ 0
      ⟨0, 1, some 0, none⟩ 1).2.1 rfl,
   (effective_weight_normalization ⟨[0, 1], [⟨0, 1, some (-2), none⟩]⟩ 0
      ⟨0, 1, some (-2), none⟩ (-2)).2.2.1 rfl (by norm_num),
   (effective_weight_normalization ⟨[0, 1], [⟨0, 1, some 0, none⟩]⟩ 0
      ⟨0, 1, some 0, none⟩ 1).2.2.2.1⟩

/-! Helper lemmas for Bellman-Ford correctness: distances only decrease,
every finite distance is attained by a walk, and a stable map bounds every
walk. -/

theorem walkWeight_nil : walkWeight [] = 0 := rfl

theorem walkWeight_cons (e : Edge) (p : List Edge) :
    walkWeight (e :: p) = effW e + walkWeight p := by
  simp [walkWeight]

theorem walkWeight_append_edge (p : List Edge) (e : Edge) :
    walkWeight (p ++ [e]) = walkWeight p + effW e := by
  simp [walkWeight]

theorem relaxStep_le (d : DistMap) (e : Edge) (v : Vertex) :
    relaxStep d e v ≤ d v := by
  by_cases hc : d e.«from» ≠ ⊤ ∧ d e.«from» + (effW e : WithTop ℚ) < d e.«to»
  · simp only [relaxStep, if_pos hc, updD]
    by_cases hv : v = e.«to»
    · simp only [if_pos hv]
      rw [hv]
      exact le_of_lt hc.2
    · simp only [if_neg hv]
      exact le_refl _
  · simp only [relaxStep, if_neg hc]
    exact le_refl _

theorem relaxAll_le (es : List Edge) : ∀ (d : DistMap) (v : Vertex),
    relaxAll es d v ≤ d v := by
  induction es with
  | nil => intro d v; exact le_refl _
  | cons e t ih =>
    intro d v
    calc relaxAll t (relaxStep d e) v ≤ relaxStep d e v := ih _ v
      _ ≤ d v := relaxStep_le d e v

theorem iterate_relaxAll_le (es : List Edge) (n : Nat) :
    ∀ (d : DistMap) (v : Vertex), (relaxAll es)^[n] d v ≤ d v := by
  induction n with
  | zero => intro d v; exact le_refl _
  | succ n ih =>
    intro d v
    rw [Function.iterate_succ_apply]
    calc (relaxAll es)^[n] (relaxAll es d) v ≤ relaxAll es d v := ih _ v
      _ ≤ d v := relaxAll_le es d v

theorem isWalk_append_edge :
    ∀ {es : List Edge} {u v : Vertex} {p : List Edge},
      IsWalk es u v p → ∀ {e : Edge}, e ∈ es → e.«from» = v →
      IsWalk es u e.«to» (p ++ [e]) := by
  intro es u v p hw
  induction hw with
  | nil w =>
    intro e he hf
    rw [List.nil_append]
    exact hf ▸ IsWalk.cons he (IsWalk.nil e.«to»)
  | cons he2 hp ih =>
    intro e he hf
    rw [List.cons_append]
    exact IsWalk.cons he2 (ih he hf)

theorem relaxStep_walkBound {es : List Edge} {start : Vertex} {d : DistMap}
    (hinv : ∀ v, d v ≠ ⊤ →
      ∃ p, IsWalk es start v p ∧ d v = (walkWeight p : WithTop ℚ))
    {e : Edge} (he : e ∈ es) :
    ∀ v, relaxStep d e v ≠ ⊤ →
      ∃ p, IsWalk es start v p ∧
        relaxStep d e v = (walkWeight p : WithTop ℚ) := by
  intro v hv
  by_cases hc : d e.«from» ≠ ⊤ ∧ d e.«from» + (effW e : WithTop ℚ) < d e.«to»
  · simp only [relaxStep, if_pos hc, updD] at hv ⊢
    by_cases hveq : v = e.«to»
    · simp only [if_pos hveq] at hv ⊢
      subst hveq
      obtain ⟨p, hp, hw⟩ := hinv e.«from» hc.1
      refine ⟨p ++ [e], isWalk_append_edge hp he rfl, ?_⟩
      rw [hw, walkWeight_append_edge, WithTop.coe_add]
    · simp only [if_neg hveq] at hv ⊢
      exact hinv v hv
  · simp only [relaxStep, if_neg hc] at hv ⊢
    exact hinv v hv

theorem foldl_relaxStep_walkBound {es : List Edge} {start : Vertex} :
    ∀ (l : List Edge), (∀ e ∈ l, e ∈ es) → ∀ (d : DistMap),
      (∀ v, d v ≠ ⊤ →
        ∃ p, IsWalk es start v p ∧ d v = (walkWeight p : WithTop ℚ)) →
      ∀ v, l.foldl relaxStep d v ≠ ⊤ →
        ∃ p, IsWalk es start v p ∧
          l.foldl relaxStep d v = (walkWeight p : WithTop ℚ) := by
  intro l
  induction l with
  | nil => intro _ d hinv; exact hinv
  | cons e t ih =>
    intro hsub d hinv
    simp only [List.foldl_cons]
    exact ih (fun x hx => hsub x (List.mem_cons_of_mem e hx))
      (relaxStep d e)
      (relaxStep_walkBound hinv (hsub e (List.mem_cons_self e t)))

theorem iterate_relaxAll_walkBound {es : List Edge} {start : Vertex}
    (n : Nat) :
    ∀ (d : DistMap),
      (∀ v, d v ≠ ⊤ →
        ∃ p, IsWalk es start v p ∧ d v = (walkWeight p : WithTop ℚ)) →
      ∀ v, (relaxAll es)^[n] d v ≠ ⊤ →
        ∃ p, IsWalk es start v p ∧
          (relaxAll es)^[n] d v = (walkWeight p : WithTop ℚ) := by
  induction n with
  | zero => intro d hinv; exact hinv
  | succ n ih =>
    intro d hinv
    rw [Function.iterate_succ_apply]
    exact ih (relaxAll es d)
      (foldl_relaxStep_walkBound es (fun e he => he) d hinv)

theorem initDist_walkBound (es : List Edge) (start : Vertex) :
    ∀ v, initDist start v ≠ ⊤ →
      ∃ p, IsWalk es start v p ∧
        initDist start v = (walkWeight p : WithTop ℚ) := by
  intro v hv
  unfold initDist at hv ⊢
  by_cases h : v = start
  · subst h
    rw [if_pos rfl]
    exact ⟨[], IsWalk.nil v, by simp [walkWeight]⟩
  · rw [if_neg h] at hv
    exact absurd rfl hv

theorem stable_walk {es : List Edge} {d : DistMap}
    (hstab : ¬ hasImprovement es d) :
    ∀ {u v : Vertex} {p : List Edge}, IsWalk es u v p → d u ≠ ⊤ →
      d v ≤ d u + (walkWeight p : WithTop ℚ) := by
  intro u v p hw
  induction hw with
  | nil w =>
    intro _
    simp [walkWeight_nil]
  | cons he hp ih =>
    rename_i w e p2
    intro hu
    have hs : ¬ (d e.«from» ≠ ⊤ ∧
        d e.«from» + (effW e : WithTop ℚ) < d e.«to») :=
      fun hcon => hstab ⟨e, he, hcon⟩
    have hle : d e.«to» ≤ d e.«from» + (effW e : WithTop ℚ) := by
      by_contra hlt
      push_neg at hlt
      exact hs ⟨hu, hlt⟩
    have htop : d e.«from» + (effW e : WithTop ℚ) ≠ ⊤ :=
      WithTop.add_ne_top.mpr ⟨hu, WithTop.coe_ne_top⟩
    have hne : d e.«to» ≠ ⊤ := by
      intro h
      rw [h] at hle
      exact htop (top_le_iff.mp hle)
    calc d w ≤ d e.«to» + (walkWeight p2 : WithTop ℚ) := ih hne
      _ ≤ (d e.«from» + (effW e : WithTop ℚ)) + (walkWeight p2 : WithTop ℚ) :=
        add_le_add_right hle _
      _ = d e.«from» + (walkWeight (e :: p2) : WithTop ℚ) := by
        rw [walkWeight_cons, WithTop.coe_add, add_assoc]

theorem stable_start_zero {es : List Edge} {start : Vertex} {n : Nat}
    (hstab : ¬ hasImprovement es ((relaxAll es)^[n] (initDist start))) :
    (relaxAll es)^[n] (initDist start) start = 0 := by
  set dF := (relaxAll es)^[n] (initDist start) with hdF
  have h1 : dF start ≤ 0 := by
    have := iterate_relaxAll_le es n (initDist start) start
    rw [← hdF] at this
    simpa [initDist] using this
  have hne : dF start ≠ ⊤ := by
    intro h
    rw [h, top_le_iff] at h1
    simp at h1
  obtain ⟨p, hp, hw⟩ :=
    iterate_relaxAll_walkBound n (initDist start)
      (initDist_walkBound es start) start (by rw [← hdF] at *; exact hne)
  rw [← hdF] at hw
  have hst := stable_walk hstab hp hne
  rw [hw] at hst h1 ⊢
  rw [← WithTop.coe_add, WithTop.coe_le_coe] at hst
  have h1q : walkWeight p ≤ 0 := by
    exact_mod_cast h1
  have : (0 : ℚ) ≤ walkWeight p := by linarith
  have : walkWeight p = 0 := le_antisymm h1q this
  rw [this]
  rfl

/-- Claim C8: `bellmanFord(start)` performs `|V|-1` relaxation rounds and
fails with `ValidationError` exactly when the additional detection pass over
all edges finds a further improvement; on success the returned map sends
every vertex to its shortest effective-weight distance from `start` — it is
a lower bound on the weight of every walk from `start`, every finite value
is attained by such a walk, and a vertex is mapped to `Infinity` exactly
when no walk from `start` reaches it. -/
theorem bellmanFord_correct :
    ∀ (g : Graph) (start : Vertex),
      validateGraph g.vertices g.edges → start ∈ g.vertices →
      (g.bellmanFord start = .error .validationError ↔
        hasImprovement g.edges
          ((relaxAll g.edges)^[g.vertices.length - 1] (initDist start))) ∧
      (∀ d, g.bellmanFord start = .ok d →
        (∀ v (p : List Edge),
          IsWalk g.edges start v p → d v ≤ (walkWeight p : WithTop ℚ)) ∧
        (∀ v, d v ≠ ⊤ →
          ∃ p, IsWalk g.edges start v p ∧ d v = (walkWeight p : WithTop ℚ)) ∧
        (∀ v, d v = ⊤ ↔ ∀ p, ¬ IsWalk g.edges start v p)) := by
  intro g start hval hstart
  set dF := (relaxAll g.edges)^[g.vertices.length - 1] (initDist start)
    with hdF
  constructor
  · unfold Graph.bellmanFord
    by_cases h : hasImprovement g.edges dF
    · rw [← hdF, if_pos h]
      simp [h]
    · rw [← hdF, if_neg h]
      simp [h]
  · intro d hd
    have hok : ¬ hasImprovement g.edges dF ∧ d = dF := by
      unfold Graph.bellmanFord at hd
      rw [← hdF] at hd
      by_cases h : hasImprovement g.edges dF
      · rw [if_pos h] at hd
        exact absurd hd (by simp)
      · rw [if_neg h] at hd
        have := hd
        simp only [Except.ok.injEq] at this
        exact ⟨h, this.symm⟩
    obtain ⟨hstab, hdeq⟩ := hok
    subst hdeq
    have hzero : dF start = 0 := stable_start_zero (hdF ▸ hstab)
    have hne0 : dF start ≠ ⊤ := by
      rw [hzero]
      simp
    have hWB : ∀ v, dF v ≠ ⊤ →
        ∃ p, IsWalk g.edges start v p ∧ dF v = (walkWeight p : WithTop ℚ) := by
      intro v hv
      exact iterate_relaxAll_walkBound _ (initDist start)
        (initDist_walkBound g.edges start) v (hdF ▸ hv)
    have hupper : ∀ v (p : List Edge), IsWalk g.edges start v p →
        dF v ≤ (walkWeight p : WithTop ℚ) := by
      intro v p hp
      have := stable_walk hstab hp hne0
      rw [hzero, zero_add] at this
      exact this
    refine ⟨hupper, hWB, ?_⟩
    intro v
    constructor
    · intro hv p hp
      have := hupper v p hp
      rw [hv, top_le_iff] at this
      exact WithTop.coe_ne_top this
    · intro hnp
      by_contra hne
      obtain ⟨p, hp, _⟩ := hWB v hne
      exact hnp p hp

theorem bellmanFord_correct_witness :
    validateGraph [0, 1] [⟨0, 1, some (-3), none⟩, ⟨1, 0, some 1, none⟩] ∧
    (0 : Vertex) ∈ ([0, 1] : List Vertex) ∧
    (Graph.bellmanFord
        ⟨[0, 1], [⟨0, 1, some (-3), none⟩, ⟨1, 0, some 1, none⟩]⟩ 0 =
        .error .validationError ↔
      hasImprovement [⟨0, 1, some (-3), none⟩, ⟨1, 0, some 1, none⟩]
        ((relaxAll [⟨0, 1, some (-3), none⟩, ⟨1, 0, some 1, none⟩])^[1]
          (initDist 0))) :=
  ⟨by decide, by decide,
   (bellmanFord_correct
      ⟨[0, 1], [⟨0, 1, some (-3), none⟩, ⟨1, 0, some 1, none⟩]⟩ 0
      (by decide) (by decide)).1⟩

/-! Helper lemmas for hierarchy leveling: `jsDedup`, the in-degree
bookkeeping, and the invariant that the degree map counts the edges whose
source still remains. -/

theorem mem_jsDedup : ∀ (l : List Vertex) (v : Vertex),
    v ∈ jsDedup l ↔ v ∈ l := by
  intro l
  induction l with
  | nil => intro v; simp [jsDedup]
  | cons a t ih =>
    intro v
    simp only [jsDedup, List.mem_cons, List.mem_filter, ih]
    by_cases hv : v = a
    · simp [hv]
    · simp [hv]

theorem nodup_jsDedup : ∀ (l : List Vertex), (jsDedup l).Nodup := by
  intro l
  induction l with
  | nil => simp [jsDedup]
  | cons a t ih =>
    simp only [jsDedup, List.nodup_cons]
    constructor
    · intro hmem
      rw [List.mem_filter] at hmem
      simpa using hmem.2
    · exact ih.filter _

theorem foldl_hlDec_apply (v : Vertex) (left2 : List Vertex) :
    ∀ (es : List Edge) (deg : Vertex → Int) (w : Vertex),
      es.foldl (hlDec v left2) deg w =
        deg w - ((es.filter
          (fun e => e.«from» = v ∧ e.«to» = w ∧ e.«to» ∈ left2)).length : Int) := by
  intro es
  induction es with
  | nil =>
    intro deg w
    simp
  | cons e t ih =>
    intro deg w
    simp only [List.foldl_cons, List.filter_cons]
    by_cases hcond : e.«from» = v ∧ e.«to» ∈ left2
    · rw [show hlDec v left2 deg e = updFn deg e.«to» (deg e.«to» - 1) from
        by simp [hlDec, hcond]]
      rw [ih]
      by_cases hw : e.«to» = w
      · rw [if_pos (by
          simp only [decide_eq_true_eq]
          exact ⟨hcond.1, hw, hw ▸ hcond.2⟩)]
        simp only [List.length_cons, updFn, if_pos hw.symm]
        rw [hw]
        push_cast
        ring
      · rw [if_neg (by simp [hw])]
        simp only [updFn]
        rw [if_neg (fun h => hw h.symm)]
    · rw [show hlDec v left2 deg e = deg from by simp [hlDec, hcond]]
      rw [ih]
      rw [if_neg (by
        simp only [decide_eq_true_eq]
        rintro ⟨h1, h2, h3⟩
        exact hcond ⟨h1, h2 ▸ h3⟩)]

theorem filter_length_split {α : Type} (l : List α) (p q : α → Bool) :
    (l.filter p).length =
      (l.filter (fun a => p a && q a)).length +
      (l.filter (fun a => p a && !q a)).length := by
  induction l with
  | nil => simp
  | cons a t ih =>
    simp only [List.filter_cons]
    cases hp : p a <;> cases hq : q a <;> simp [hp, hq] <;> omega

theorem hlRemove_inv {es : List Edge} {left : List Vertex}
    {deg : Vertex → Int}
    (hinv : ∀ w ∈ left, deg w =
      ((es.filter (fun e => e.«to» = w ∧ e.«from» ∈ left)).length : Int))
    {v : Vertex} (hv : v ∈ left) :
    ∀ w ∈ left.filter (fun x => x ≠ v),
      (hlRemove es (left, deg) v).2 w =
        ((es.filter (fun e => e.«to» = w ∧
          e.«from» ∈ left.filter (fun x => x ≠ v))).length : Int) := by
  intro w hw
  have hw2 := List.mem_filter.mp hw
  have hwleft : w ∈ left := hw2.1
  show (es.foldl (hlDec v (left.filter (fun x => x ≠ v))) deg) w = _
  rw [foldl_hlDec_apply, hinv w hwleft]
  have hsplit := filter_length_split es
    (fun e => decide (e.«to» = w ∧ e.«from» ∈ left))
    (fun e => decide (e.«from» = v))
  have hc1 : es.filter (fun e =>
      decide (e.«to» = w ∧ e.«from» ∈ left) && decide (e.«from» = v)) =
    es.filter (fun e => decide (e.«from» = v ∧ e.«to» = w ∧
      e.«to» ∈ left.filter (fun x => x ≠ v))) := by
    apply List.filter_congr
    intro e _
    rw [← Bool.decide_and, decide_eq_decide]
    constructor
    · rintro ⟨⟨h1, _⟩, h3⟩
      exact ⟨h3, h1, h1 ▸ hw⟩
    · rintro ⟨h1, h2, _⟩
      exact ⟨⟨h2, h1 ▸ hv⟩, h1⟩
  have hc2 : es.filter (fun e =>
      decide (e.«to» = w ∧ e.«from» ∈ left) && !decide (e.«from» = v)) =
    es.filter (fun e => decide (e.«to» = w ∧
      e.«from» ∈ left.filter (fun x => x ≠ v))) := by
    apply List.filter_congr
    intro e _
    rw [show (!decide (e.«from» = v)) = decide (¬ e.«from» = v) from by
      by_cases h : e.«from» = v <;> simp [h]]
    rw [← Bool.decide_and, decide_eq_decide]
    constructor
    · rintro ⟨⟨h1, h2⟩, h3⟩
      exact ⟨h1, List.mem_filter.mpr ⟨h2, by simpa using h3⟩⟩
    · rintro ⟨h1, h2⟩
      have h3 := List.mem_filter.mp h2
      exact ⟨⟨h1, h3.1⟩, by simpa using h3.2⟩
  rw [hc1] at hsplit
  rw [hc2] at hsplit
  omega

theorem foldl_hlRemove_inv {es : List Edge} :
    ∀ (lvl left : List Vertex) (deg : Vertex → Int),
      left.Nodup → lvl.Nodup → (∀ x ∈ lvl, x ∈ left) →
      (∀ w ∈ left, deg w =
        ((es.filter (fun e => e.«to» = w ∧ e.«from» ∈ left)).length : Int)) →
      (lvl.foldl (hlRemove es) (left, deg)).1 =
          left.filter (fun x => ¬ x ∈ lvl) ∧
      (lvl.foldl (hlRemove es) (left, deg)).1.Nodup ∧
      (∀ w ∈ (lvl.foldl (hlRemove es) (left, deg)).1,
        (lvl.foldl (hlRemove es) (left, deg)).2 w =
          ((es.filter (fun e => e.«to» = w ∧
            e.«from» ∈ (lvl.foldl (hlRemove es) (left, deg)).1)).length :
              Int)) := by
  intro lvl
  induction lvl with
  | nil =>
    intro left deg hnd _ _ hinv
    refine ⟨by simp, by simpa using hnd, fun w hw => hinv w hw⟩
  | cons v t ih =>
    intro left deg hnd hndlvl hsub hinv
    simp only [List.foldl_cons]
    have hv : v ∈ left := hsub v (List.mem_cons_self v t)
    have hstep := hlRemove_inv hinv hv
    have hnd2 : (left.filter (fun x => x ≠ v)).Nodup := hnd.filter _
    have hndt : t.Nodup := (List.nodup_cons.mp hndlvl).2
    have hvt : v ∉ t := (List.nodup_cons.mp hndlvl).1
    have hsub2 : ∀ x ∈ t, x ∈ left.filter (fun x => x ≠ v) := by
      intro x hx
      rw [List.mem_filter]
      refine ⟨hsub x (List.mem_cons_of_mem v hx), ?_⟩
      simp only [decide_eq_true_eq]
      intro hxv
      exact hvt (hxv ▸ hx)
    obtain ⟨h1, h2, h3⟩ :=
      ih (left.filter (fun x => x ≠ v)) (hlRemove es (left, deg) v).2
        hnd2 hndt hsub2 (fun w hw => hstep w hw)
    refine ⟨?_, h2, h3⟩
    rw [List.filter_filter] at h1
    rw [List.filter_congr (fun x _ =>
      show (decide (x ∉ t) && decide (x ≠ v)) = decide (x ∉ v :: t) from by
        by_cases hx1 : x = v
        · simp [hx1]
        · by_cases hx2 : x ∈ t <;> simp [hx1, hx2])] at h1
    exact h1

theorem isWalk_edges_mem :
    ∀ {es : List Edge} {u v : Vertex} {p : List Edge},
      IsWalk es u v p → ∀ e ∈ p, e ∈ es := by
  intro es u v p hw
  induction hw with
  | nil w => intro e he; exact absurd he (List.not_mem_nil e)
  | cons he2 hp ih =>
    intro e he
    rcases List.mem_cons.mp he with h | h
    · exact h ▸ he2
    · exact ih e h

theorem isWalk_pred :
    ∀ {es : List Edge} {u v : Vertex} {p : List Edge},
      IsWalk es u v p →
      ∀ e ∈ p, e.«from» = u ∨ ∃ e2 ∈ p, e2.«to» = e.«from» := by
  intro es u v p hw
  induction hw with
  | nil w => intro e he; exact absurd he (List.not_mem_nil e)
  | cons he2 hp ih =>
    rename_i w e0 p2
    intro e he
    rcases List.mem_cons.mp he with h | h
    · exact Or.inl (by rw [h])
    · rcases ih e h with h2 | h2
      · exact Or.inr ⟨e0, List.mem_cons_self e0 p2, h2.symm⟩
      · obtain ⟨e2, he2m, he2t⟩ := h2
        exact Or.inr ⟨e2, List.mem_cons_of_mem e0 he2m, he2t⟩

theorem isWalk_nil_eq {es : List Edge} {u v : Vertex}
    (h : IsWalk es u v []) : u = v := by
  cases h
  rfl

theorem isWalk_end_mem :
    ∀ {es : List Edge} {u v : Vertex} {p : List Edge},
      IsWalk es u v p → p ≠ [] → v ∈ p.map (fun e => e.«to») := by
  intro es u v p hw
  induction hw with
  | nil w => intro h; exact absurd rfl h
  | cons he2 hp ih =>
    rename_i w e0 p2
    intro _
    by_cases hp2 : p2 = []
    · subst hp2
      have heq := isWalk_nil_eq hp
      simp [heq]
    · simpa using Or.inr (by simpa using ih hp2)

theorem initInDegree_foldl (es : List Edge) :
    ∀ (f : Vertex → Int) (w : Vertex),
      es.foldl (fun f e => updFn f e.«to» (f e.«to» + 1)) f w =
        f w + ((es.filter (fun e => e.«to» = w)).length : Int) := by
  induction es with
  | nil => intro f w; simp
  | cons e t ih =>
    intro f w
    simp only [List.foldl_cons, List.filter_cons]
    rw [ih]
    by_cases hw : e.«to» = w
    · rw [if_pos (by simpa using hw)]
      simp only [updFn, if_pos hw.symm, List.length_cons, hw]
      push_cast
      ring
    · rw [if_neg (by simpa using hw)]
      simp only [updFn]
      rw [if_neg (fun h => hw h.symm)]

theorem initInDegree_eq (es : List Edge) (w : Vertex) :
    initInDegree es w = ((es.filter (fun e => e.«to» = w)).length : Int) := by
  unfold initInDegree
  rw [initInDegree_foldl]
  simp

theorem hlLoop_cycle {es : List Edge} {C : List Vertex} (hCne : C ≠ [])
    (hpred : ∀ x ∈ C, ∃ e ∈ es, e.«to» = x ∧ e.«from» ∈ C) :
    ∀ (fuel : Nat) (left : List Vertex) (deg : Vertex → Int),
      left.Nodup →
      (∀ w ∈ left, deg w =
        ((es.filter (fun e => e.«to» = w ∧ e.«from» ∈ left)).length : Int)) →
      (∀ x ∈ C, x ∈ left) →
      hlLoop es fuel left deg = .error .validationError := by
  intro fuel
  induction fuel with
  | zero => intro left deg _ _ _; rfl
  | succ fuel ih =>
    intro left deg hnd hinv hC
    obtain ⟨x0, hx0⟩ : ∃ x, x ∈ C := by
      cases C with
      | nil => exact absurd rfl hCne
      | cons a t => exact ⟨a, List.mem_cons_self a t⟩
    unfold hlLoop
    rw [if_neg (show ¬ left = [] from fun h =>
      (h ▸ List.not_mem_nil x0) (hC x0 hx0))]
    dsimp only
    have hCnotlev : ∀ x ∈ C, ¬ x ∈ left.filter (fun v => deg v = 0) := by
      intro x hx hxl
      rw [List.mem_filter] at hxl
      obtain ⟨hxleft, hdeg0⟩ := hxl
      simp only [decide_eq_true_eq] at hdeg0
      obtain ⟨e, he, hto, hfrom⟩ := hpred x hx
      have hemem : e ∈ es.filter
          (fun e => e.«to» = x ∧ e.«from» ∈ left) := by
        rw [List.mem_filter]
        exact ⟨he, by
          simp only [decide_eq_true_eq]
          exact ⟨hto, hC e.«from» hfrom⟩⟩
      have hpos : 0 < (es.filter
          (fun e => e.«to» = x ∧ e.«from» ∈ left)).length :=
        List.length_pos_of_mem hemem
      have := hinv x hxleft
      rw [hdeg0] at this
      omega
    by_cases hlev : left.filter (fun v => deg v = 0) = []
    · rw [if_pos hlev]
    · rw [if_neg hlev]
      have hlvlsub : ∀ x ∈ left.filter (fun v => deg v = 0), x ∈ left :=
        fun x hx => (List.mem_filter.mp hx).1
      have hlvlnd : (left.filter (fun v => deg v = 0)).Nodup := hnd.filter _
      obtain ⟨hfst, hnd2, hinv2⟩ :=
        foldl_hlRemove_inv (left.filter (fun v => deg v = 0)) left deg
          hnd hlvlnd hlvlsub hinv
      have hC2 : ∀ x ∈ C,
          x ∈ ((left.filter (fun v => deg v = 0)).foldl
            (hlRemove es) (left, deg)).1 := by
        intro x hx
        rw [hfst, List.mem_filter]
        refine ⟨hC x hx, ?_⟩
        simp only [decide_eq_true_eq]
        exact hCnotlev x hx
      rw [ih _ _ hnd2 hinv2 hC2]
      rfl

/-- Claim C7: hierarchy leveling fails with `ValidationError` on every graph
with an empty vertex set and on every valid graph containing a directed
cycle (formalised as a nonempty closed walk, which exists iff a directed
cycle does); on the DAG with vertices `0..6` and edges
`0→1, 0→2, 1→3, 2→3, 3→4, 4→5, 5→6` it returns exactly
`[[0], [1, 2], [3], [4], [5], [6]]`. -/
theorem hl_levels :
    ∀ g : Graph,
      (g.vertices = [] → g.HL = .error .validationError) ∧
      (validateGraph g.vertices g.edges →
        ∀ (v : Vertex) (p : List Edge), p ≠ [] → IsWalk g.edges v v p →
          g.HL = .error .validationError) ∧
      (⟨[0, 1, 2, 3, 4, 5, 6],
        [⟨0, 1, none, none⟩, ⟨0, 2, none, none⟩, ⟨1, 3, none, none⟩,
         ⟨2, 3, none, none⟩, ⟨3, 4, none, none⟩, ⟨4, 5, none, none⟩,
         ⟨5, 6, none, none⟩]⟩ : Graph).HL =
        .ok [[0], [1, 2], [3], [4], [5], [6]] := by
  intro g
  refine ⟨?_, ?_, by decide⟩
  · intro h
    unfold Graph.HL
    rw [if_pos h]
  · intro hval v p hpne hwalk
    set C := p.map (fun e => e.«to») with hCdef
    have hCne : C ≠ [] := by
      intro h
      rw [hCdef] at h
      exact hpne (List.map_eq_nil_iff.mp h)
    have hpred : ∀ x ∈ C, ∃ e ∈ g.edges, e.«to» = x ∧ e.«from» ∈ C := by
      intro x hx
      rw [hCdef, List.mem_map] at hx
      obtain ⟨e, hep, hto⟩ := hx
      refine ⟨e, isWalk_edges_mem hwalk e hep, hto, ?_⟩
      rcases isWalk_pred hwalk e hep with h | h
      · rw [h, hCdef]
        exact isWalk_end_mem hwalk hpne
      · obtain ⟨e2, he2, he2t⟩ := h
        rw [hCdef, List.mem_map]
        exact ⟨e2, he2, he2t⟩
    have hvne : g.vertices ≠ [] := by
      obtain ⟨e0, he0⟩ : ∃ e, e ∈ p := List.exists_mem_of_ne_nil p hpne
      have hm := (hval e0 (isWalk_edges_mem hwalk e0 he0)).1
      intro h
      rw [h] at hm
      exact List.not_mem_nil _ hm
    unfold Graph.HL
    rw [if_neg hvne]
    apply hlLoop_cycle hCne hpred
    · exact nodup_jsDedup g.vertices
    · intro w hw
      rw [initInDegree_eq]
      have hfe : g.edges.filter (fun e => e.«to» = w) =
          g.edges.filter
            (fun e => e.«to» = w ∧ e.«from» ∈ jsDedup g.vertices) := by
        apply List.filter_congr
        intro e he
        rw [decide_eq_decide]
        exact ⟨fun h => ⟨h, (mem_jsDedup _ _).mpr (hval e he).1⟩,
               fun h => h.1⟩
      rw [hfe]
    · intro x hx
      rw [mem_jsDedup]
      rw [hCdef, List.mem_map] at hx
      obtain ⟨e, hep, hto⟩ := hx
      exact hto ▸ (hval e (isWalk_edges_mem hwalk e hep)).2

theorem hl_levels_witness :
    (⟨[], []⟩ : Graph).HL = .error .validationError ∧
    validateGraph [0, 1] [⟨0, 1, none, none⟩, ⟨1, 0, none, none⟩] ∧
    (⟨[0, 1], [⟨0, 1, none, none⟩, ⟨1, 0, none, none⟩]⟩ : Graph).HL =
      .error .validationError :=
  ⟨(hl_levels ⟨[], []⟩).1 rfl,
   by decide,
   (hl_levels ⟨[0, 1], [⟨0, 1, none, none⟩, ⟨1, 0, none, none⟩]⟩).2.1
     (by decide) 0 [⟨0, 1, none, none⟩, ⟨1, 0, none, none⟩] (by decide)
     (IsWalk.cons
       (show (⟨0, 1, none, none⟩ : Edge) ∈
           [⟨0, 1, none, none⟩, ⟨1, 0, none, none⟩] from by decide)
       (IsWalk.cons
         (show (⟨1, 0, none, none⟩ : Edge) ∈
             [⟨0, 1, none, none⟩, ⟨1, 0, none, none⟩] from by decide)
         (IsWalk.nil 0)))⟩
